import Mathlib

/-!
Verification development for `message/struct_record.go` of the Reisender/pipe
repository: a `StructRecord` adapter that exposes a Go struct through a
key/value `Record` interface, deriving keys from struct-field tags.

The Go code is shallowly embedded: Go types are modelled by `GoType`
(base kinds, one level of pointer, structs with declared fields), runtime
values by `GoVal` with struct contents as `ValTree` trees, and the pieces of
the `reflect` package the source uses (`TypeOf`, `Kind`, `Elem`,
`VisibleFields`, `Indirect`, `FieldByName`, `Interface`) are modelled
faithfully, including the preorder walk with depth-based name shadowing that
`reflect.VisibleFields` performs.  Field payloads are a type parameter `α`.
Panics of the Go runtime (calling `Kind` on the nil `reflect.Type`,
`FieldByName` on a non-struct value, `Interface` on the zero `Value`) are
explicit result constructors.
-/

namespace PipeMsg

/-- A struct tag set: association from tag namespace (for example "db") to
the raw tag value, modelling `reflect.StructTag` after parsing. -/
abbrev Tags := List (String × String)

mutual
/-- Go types as far as `NewStructRecord` observes them: a non-struct,
non-pointer kind (with its name), a pointer, or a struct with its
declared field list. -/
inductive GoType : Type where
  | baseT (tyName : String) : GoType
  | ptrT (pointee : GoType) : GoType
  | structT (fields : FieldList) : GoType

/-- The declared fields of a struct type, in declaration order. -/
inductive FieldList : Type where
  | nil : FieldList
  | cons (f : StructField) (rest : FieldList) : FieldList

/-- `reflect.StructField`: name, whether `IsExported()` holds, the
`Anonymous` (embedded) flag, the tag set, and the field's type. -/
inductive StructField : Type where
  | mk (name : String) (exported : Bool) (anonymous : Bool)
      (tags : Tags) (ty : GoType) : StructField
end

/-- Convert a `FieldList` to a plain list of fields. -/
def FieldList.toList : FieldList → List StructField
  | .nil => []
  | .cons f rest => f :: rest.toList

/-- Declared name of a field. -/
def StructField.name : StructField → String
  | .mk n _ _ _ _ => n

/-- `IsExported()` of a field. -/
def StructField.exported : StructField → Bool
  | .mk _ e _ _ _ => e

/-- `Anonymous` flag of a field. -/
def StructField.anonymous : StructField → Bool
  | .mk _ _ a _ _ => a

/-- Tag set of a field. -/
def StructField.tags : StructField → Tags
  | .mk _ _ _ t _ => t

/-- Type of a field. -/
def StructField.ty : StructField → GoType
  | .mk _ _ _ _ t => t

/-- Runtime contents of a Go value as the adapter reads them: a leaf for
any non-struct-kind value (its payload drawn from `α`), or a node whose
children are the field contents of a struct value, in declaration order. -/
inductive ValTree (α : Type) : Type where
  | leaf (v : α) : ValTree α
  | node (children : List (ValTree α)) : ValTree α

/-- A Go `interface{}` argument as `NewStructRecord` receives it: the
untyped nil interface, a (typed) pointer holding a heap address, a struct
value together with its type's field list, or a value of non-struct kind. -/
inductive GoVal (α : Type) : Type where
  | nilV : GoVal α
  | ptrV (pointee : GoType) (addr : Nat) : GoVal α
  | structV (fields : FieldList) (vals : ValTree α) : GoVal α
  | baseV (tyName : String) (v : α) : GoVal α

/-- `reflect.TypeOf`: `none` is the nil `reflect.Type` returned for the
untyped nil interface; calling `Kind` on it panics. -/
def GoVal.typeOf {α : Type} : GoVal α → Option GoType
  | .nilV => none
  | .ptrV t _ => some (.ptrT t)
  | .structV fs _ => some (.structT fs)
  | .baseV n _ => some (.baseT n)

/-- The `StructRecord` struct of the source: tag namespace, the wrapped
value (stored as given, so a pointer keeps referring to the live struct),
the extracted keys (`tags`), and the key-to-field-name map (`tagsToName`,
a Go map modelled as an association list where the most recent insertion
is found first). -/
structure StructRecord (α : Type) : Type where
  tagName : String
  record : GoVal α
  tags : List String
  tagsToName : List (String × String)

/-- Outcome of `NewStructRecord`: a runtime panic (nil type descriptor),
the `(StructRecord{}, ErrNotAStruct)` error return, or success. -/
inductive BuildResult (α : Type) : Type where
  | panicked : BuildResult α
  | err : BuildResult α
  | ok (sr : StructRecord α) : BuildResult α

/-- Outcome of `Get`: `(value, true)`, `(nil, false)`, or a reflect panic
(`FieldByName` on a non-struct value, or `Interface` on the zero `Value`
returned when the field name is absent). -/
inductive GetResult (α : Type) : Type where
  | found (v : ValTree α) : GetResult α
  | notFound : GetResult α
  | panicked : GetResult α

/-- Outcome of `GetVals`: the value slice, the `nil` slice returned on the
internal-inconsistency branch, or a propagated panic from `Get`. -/
inductive ValsResult (α : Type) : Type where
  | vals (l : List (ValTree α)) : ValsResult α
  | nilRes : ValsResult α
  | panicked : ValsResult α

/-- Go `strings.Split(s, ",")` on the character list: splits at every
comma; the empty input yields one empty segment, as in Go. -/
def splitCharList : List Char → List (List Char)
  | [] => [[]]
  | c :: rest =>
    if c = ',' then [] :: splitCharList rest
    else
      match splitCharList rest with
      | [] => [[c]]
      | h :: t2 => (c :: h) :: t2

/-- Go `strings.Split(s, ",")` as a list of strings. -/
def goSplitComma (s : String) : List String :=
  (splitCharList s.data).map String.mk

/-- Index `[0]` of a nonempty Go slice of strings (`strings.Split` never
returns an empty slice, so the default is never used). -/
def headStrD : List String → String
  | [] => ""
  | h :: _ => h

/-- `reflect.StructTag.Get`: the value stored under a tag namespace, or
the empty string when the namespace is absent. -/
def tagGet (ts : Tags) (ns : String) : String :=
  match ts.find? (fun p => p.1 == ns) with
  | some p => p.2
  | none => ""

/-- Lookup in the Go map `tagsToName` (association list, most recent
insertion first). -/
def mapLookup (m : List (String × String)) (k : String) : Option String :=
  match m.find? (fun p => p.1 == k) with
  | some p => some p.2
  | none => none

/-- An entry of the `reflect.VisibleFields` result: the field data
together with its `Index` path from the root struct; a cleared (empty)
name marks a field hidden by Go's shadowing rules. -/
structure WEntry : Type where
  name : String
  exported : Bool
  anonymous : Bool
  tags : Tags
  path : List Nat
deriving Repr

/-- State of the `visibleFieldsWalker` of the Go reflect package: the
fields collected so far and the `byName` map from a field name to its
slot in `fields` (association list, most recent insertion first). -/
structure WalkState : Type where
  fields : List WEntry
  byName : List (String × Nat)

/-- Lookup in the walker's `byName` map. -/
def lookupIdx (m : List (String × Nat)) (n : String) : Option Nat :=
  match m.find? (fun p => p.1 == n) with
  | some p => some p.2
  | none => none

/-- Clear the name of the entry in slot `i` (Go's `old.Name = ""`). -/
def hideAt : List WEntry → Nat → List WEntry
  | [], _ => []
  | e :: rest, 0 => { e with name := "" } :: rest
  | e :: rest, n + 1 => e :: hideAt rest n

/-- One iteration of the loop body of `visibleFieldsWalker.walk` for a
field reached at `path`: Go's depth-based shadowing.  A same-depth name
clash hides the old entry and drops the new one; a shallower new field
hides the old entry and is added; a deeper new field is dropped. -/
def visitField (f : StructField) (path : List Nat) (st : WalkState) : WalkState :=
  match f with
  | .mk fn ex anon tgs _ =>
    match lookupIdx st.byName fn with
    | none =>
      { fields := st.fields ++ [⟨fn, ex, anon, tgs, path⟩]
        byName := (fn, st.fields.length) :: st.byName }
    | some oldIdx =>
      match st.fields.get? oldIdx with
      | none => st
      | some old =>
        if path.length = old.path.length then
          { st with fields := hideAt st.fields oldIdx }
        else if path.length < old.path.length then
          { fields := hideAt st.fields oldIdx ++ [⟨fn, ex, anon, tgs, path⟩]
            byName := (fn, st.fields.length) :: st.byName }
        else st

mutual
/-- The walk over the remaining declared fields of a struct, with `i` the
loop index and `pfx` the index path of the enclosing struct. -/
def walkFL (fs : FieldList) (i : Nat) (pfx : List Nat) (st : WalkState) : WalkState :=
  match fs with
  | .nil => st
  | .cons f rest => walkFL rest (i + 1) pfx (walkSF f (pfx ++ [i]) st)

/-- Processing of one field: record it, then (as in Go) walk into it when
it is an anonymous field of struct kind. -/
def walkSF (f : StructField) (path : List Nat) (st : WalkState) : WalkState :=
  match f with
  | .mk fn ex anon tgs ty =>
    let st1 := visitField (.mk fn ex anon tgs ty) path st
    if anon then walkTy ty path st1 else st1

/-- Walk into a field type when it is a struct (Go's
`f.Type.Kind() == reflect.Struct` guard). -/
def walkTy (t : GoType) (path : List Nat) (st : WalkState) : WalkState :=
  match t with
  | .structT fs => walkFL fs 0 path st
  | _ => st
end

/-- `reflect.VisibleFields` on a struct's field list: run the walker from
the empty state and drop the entries whose name was cleared. -/
def visibleFields (fs : FieldList) : List WEntry :=
  (walkFL fs 0 [] ⟨[], []⟩).fields.filter (fun e => e.name != "")

/-- The `extract` function of the source: the key contributed by one
field and the map update.  With an empty tag namespace the field name is
the key; otherwise the tag value before the first comma is the key, and
an empty or `"-"` value excludes the field. -/
def extract (e : WEntry) (tag : String) (m : List (String × String)) :
    List String × List (String × String) :=
  if tag = "" then ([e.name], (e.name, e.name) :: m)
  else
    let tagVal := headStrD (goSplitComma (tagGet e.tags tag))
    if tagVal = "" ∨ tagVal = "-" then ([], m)
    else ([tagVal], (tagVal, e.name) :: m)

/-- The field loop of `NewStructRecord`: over the visible fields, keep
only exported non-anonymous ones and accumulate keys and map through
`extract`. -/
def extractLoop (tag : String) : List WEntry → List String →
    List (String × String) → List String × List (String × String)
  | [], ts, m => (ts, m)
  | e :: rest, ts, m =>
    if e.exported && !e.anonymous then
      let r := extract e tag m
      extractLoop tag rest (ts ++ r.1) r.2
    else extractLoop tag rest ts m

/-- `tagName[0]` when the variadic slice is nonempty, else the empty
namespace. -/
def headTag : List String → String
  | [] => ""
  | t0 :: _ => t0

/-- The pointer dereference step of `NewStructRecord`: `t = t.Elem()`
when `t.Kind() == reflect.Ptr`, otherwise `t` unchanged. -/
def derefT : GoType → GoType
  | .ptrT p => p
  | other => other

/-- `NewStructRecord`: take the optional tag namespace, type-check the
argument (panicking on the nil type descriptor, dereferencing one level
of pointer, failing with `ErrNotAStruct` unless a struct remains), then
extract keys and map from the visible fields. -/
def newStructRecord {α : Type} (strct : GoVal α) (tagName : List String) :
    BuildResult α :=
  let tag := headTag tagName
  match strct.typeOf with
  | none => .panicked
  | some ty =>
    match derefT ty with
    | .structT fs =>
      let r := extractLoop tag (visibleFields fs) [] []
      .ok ⟨tag, strct, r.1, r.2⟩
    | _ => .err

/-- `reflect.Indirect(reflect.ValueOf(record))` followed by the check that
a struct value remains: yields the field list and contents of the struct
the adapter reads, dereferencing a pointer through the heap `σ`. -/
def indirectVal {α : Type} (σ : Nat → ValTree α) :
    GoVal α → Option (FieldList × ValTree α)
  | .structV fs vals => some (fs, vals)
  | .ptrV (.structT fs) a => some (fs, σ a)
  | _ => none

/-- Child `i` of a struct value's contents (`reflect.Value.Field`). -/
def childAt {α : Type} : ValTree α → Nat → Option (ValTree α)
  | .leaf _, _ => none
  | .node cs, i => cs.get? i

/-- `reflect.Value.FieldByIndex`: follow an index path through the
contents of a struct value. -/
def navigate {α : Type} (v : ValTree α) : List Nat → Option (ValTree α)
  | [] => some v
  | i :: rest =>
    match childAt v i with
    | some c => navigate c rest
    | none => none

/-- `FieldByName(name).Interface()` on a struct value: find the visible
field of that name and read its current contents; an absent name or a
contents/type mismatch is a reflect panic. -/
def readField {α : Type} (fs : FieldList) (vals : ValTree α) (name : String) :
    GetResult α :=
  match (visibleFields fs).find? (fun e => e.name == name) with
  | some e =>
    match navigate vals e.path with
    | some sub => .found sub
    | none => .panicked
  | none => .panicked

/-- The `Get` method: look the key up in `tagsToName`; on a hit, read the
named field from the live (possibly pointer-dereferenced) struct value;
on a miss, return `(nil, false)`. -/
def Get {α : Type} (σ : Nat → ValTree α) (sr : StructRecord α) (key : String) :
    GetResult α :=
  match mapLookup sr.tagsToName key with
  | some name =>
    match indirectVal σ sr.record with
    | some fv => readField fv.1 fv.2 name
    | none => .panicked
  | none => .notFound

/-- The `GetKeys` method. -/
def GetKeys {α : Type} (sr : StructRecord α) : List String := sr.tags

/-- The `In` method: the wrapped original value. -/
def StructRecord.In {α : Type} (sr : StructRecord α) : GoVal α := sr.record

/-- The loop of `GetVals`: collect each key's value; a `(nil, false)`
from `Get` aborts with the `nil` slice. -/
def getValsLoop {α : Type} (σ : Nat → ValTree α) (sr : StructRecord α) :
    List String → List (ValTree α) → ValsResult α
  | [], acc => .vals acc
  | k :: rest, acc =>
    match Get σ sr k with
    | .found v => getValsLoop σ sr rest (acc ++ [v])
    | .notFound => .nilRes
    | .panicked => .panicked

/-- The `GetVals` method. -/
def GetVals {α : Type} (σ : Nat → ValTree α) (sr : StructRecord α) : ValsResult α :=
  getValsLoop σ sr sr.tags []

mutual
/-- Well-typedness of runtime contents against a Go type: a struct-kind
type holds a node whose children match its fields, any other kind holds
a leaf. -/
def tyMatches {α : Type} : GoType → ValTree α → Bool
  | .structT fs, .node cs => flMatches fs cs
  | .structT _, .leaf _ => false
  | .ptrT _, .leaf _ => true
  | .ptrT _, .node _ => false
  | .baseT _, .leaf _ => true
  | .baseT _, .node _ => false

/-- Children match the declared fields pointwise. -/
def flMatches {α : Type} : FieldList → List (ValTree α) → Bool
  | .nil, [] => true
  | .cons f rest, v :: vs => fMatches f v && flMatches rest vs
  | .nil, _ :: _ => false
  | .cons _ _, [] => false

/-- A single field's contents match its type. -/
def fMatches {α : Type} : StructField → ValTree α → Bool
  | .mk _ _ _ _ ty, v => tyMatches ty v
end

/-- Replace the subtree at an index path inside struct contents (the
effect of assigning to a field of the wrapped struct). -/
def setPath {α : Type} (v : ValTree α) : List Nat → ValTree α → ValTree α
  | [], w => w
  | i :: rest, w =>
    match v with
    | .leaf x => .leaf x
    | .node cs =>
      match cs.get? i with
      | some c => .node (cs.set i (setPath c rest w))
      | none => .node cs

/-- Assign new contents `w` to the field named `nm` of a struct value
with fields `fs` and contents `v` (resolving the name like
`FieldByName`); contents are unchanged when the name is not visible. -/
def setField {α : Type} (fs : FieldList) (v : ValTree α) (nm : String)
    (w : ValTree α) : ValTree α :=
  match (visibleFields fs).find? (fun e => e.name == nm) with
  | some e => setPath v e.path w
  | none => v

/-- Heap update at one address: the mutation of a pointed-to struct. -/
def heapUpdate {α : Type} (σ : Nat → ValTree α) (a : Nat) (w : ValTree α) :
    Nat → ValTree α :=
  fun n => if n = a then w else σ n

/-- Specification-side predicate, from the claim wording: the value is a
struct type after at most one pointer dereference. -/
def isStructAfterDeref (t : GoType) : Bool :=
  match derefT t with
  | .structT _ => true
  | _ => false

/-- The key contributed by one visible field under the source's rules, or
`none` when the field contributes nothing (not exported, anonymous, or a
specified tag namespace yielding an empty or `"-"` value). -/
def keyOf? (tag : String) (e : WEntry) : Option String :=
  if e.exported && !e.anonymous then
    if tag = "" then some e.name
    else
      let tagVal := headStrD (goSplitComma (tagGet e.tags tag))
      if tagVal = "" ∨ tagVal = "-" then none
      else some tagVal
  else none

/-- The map effect of one loop iteration of `NewStructRecord`: insert the
contributed key, or leave the map unchanged. -/
def stepMap (tag : String) (e : WEntry) (m : List (String × String)) :
    List (String × String) :=
  match keyOf? tag e with
  | some k => (k, e.name) :: m
  | none => m

/-- Whether a visible field contributes exactly the key `k`. -/
def contribKey (tag k : String) (e : WEntry) : Bool :=
  keyOf? tag e == some k

/-- The last field in walk order contributing key `k`: the one whose
mapping survives the silent overwrite. -/
def lastContrib (tag k : String) (l : List WEntry) : Option WEntry :=
  (l.filter (contribKey tag k)).getLast?

/-- Specification-side key of a declared field, from the claim wording of
C2/C4: only immediate, exported, non-embedded fields, keyed by name or by
the tag value before the first comma, with empty and `"-"` excluded. -/
def specFieldKey (tag : String) (f : StructField) : Option String :=
  if f.exported && !f.anonymous then
    if tag = "" then some f.name
    else
      let tagVal := headStrD (goSplitComma (tagGet f.tags tag))
      if tagVal = "" ∨ tagVal = "-" then none
      else some tagVal
  else none

/-- Specification-side key sequence claimed by C4: the declared fields of
the struct in declaration order, excluded fields omitted. -/
def specDeclKeys (fs : FieldList) (tag : String) : List String :=
  fs.toList.filterMap (specFieldKey tag)

/-- The walker entries a struct with no embedded fields should produce:
its declared fields in order, with one-step index paths. -/
def declEntries : FieldList → Nat → List Nat → List WEntry
  | .nil, _, _ => []
  | .cons (.mk n ex an tg _) rest, i, pfx =>
    ⟨n, ex, an, tg, pfx ++ [i]⟩ :: declEntries rest (i + 1) pfx

/-- A struct type is flat when none of its declared fields is anonymous,
every declared name is nonempty, and (as the Go compiler guarantees)
declared names are distinct. -/
def flatStruct (fs : FieldList) : Prop :=
  (∀ f ∈ fs.toList, f.anonymous = false ∧ f.name ≠ "") ∧
    (fs.toList.map StructField.name).Nodup

instance (fs : FieldList) : Decidable (flatStruct fs) := by
  unfold flatStruct; infer_instance

/-- The declared fields of the struct type the factory type-checks: the
argument's type after one pointer dereference, when it is a struct. -/
def derefFields {α : Type} (v : GoVal α) : Option FieldList :=
  match v.typeOf with
  | none => none
  | some t =>
    match derefT t with
    | .structT fs => some fs
    | _ => none

/-- The path of a walker entry leads to an existing subtree of the root
contents. -/
def NavOk {α : Type} (root : ValTree α) (e : WEntry) : Prop :=
  ∃ w, navigate root e.path = some w

/-! Concrete example values used to instantiate the theorems: the structs
of the spec's end-to-end scenario and small embedded-field structs. -/

/-- Example: `type Flat struct { ID int64 (db:"id"); Name string
(db:"name,omitempty"); secret string }`. -/
def flatFs : FieldList :=
  .cons (.mk "ID" true false [("db", "id")] (.baseT "int64"))
    (.cons (.mk "Name" true false [("db", "name,omitempty")] (.baseT "string"))
      (.cons (.mk "secret" false false [] (.baseT "string")) .nil))

/-- A `Flat` value with contents 1, 2, 3. -/
def flatVal : GoVal Int := .structV flatFs (.node [.leaf 1, .leaf 2, .leaf 3])

/-- The adapter `NewStructRecord(flatVal, "db")` builds. -/
def exFlatSR : StructRecord Int :=
  ⟨"db", flatVal, ["id", "name"], [("name", "Name"), ("id", "ID")]⟩

/-- A heap whose every address holds a `Flat` contents node. -/
def exHeap : Nat → ValTree Int := fun _ => .node [.leaf 1, .leaf 2, .leaf 3]

/-- A pointer to a `Flat` value at address 0. -/
def ptrFlatVal : GoVal Int := .ptrV (.structT flatFs) 0

/-- The adapter `NewStructRecord(&flat, "db")` builds. -/
def ptrFlatSR : StructRecord Int :=
  ⟨"db", ptrFlatVal, ["id", "name"], [("name", "Name"), ("id", "ID")]⟩

/-- Example: `type Inner struct { Y int }`. -/
def innerFs : FieldList := .cons (.mk "Y" true false [] (.baseT "int")) .nil

/-- Example: `type OuterXE struct { X int; Inner }` with `Inner`
embedded. -/
def outerXE : FieldList :=
  .cons (.mk "X" true false [] (.baseT "int"))
    (.cons (.mk "Inner" true true [] (.structT innerFs)) .nil)

/-- An `OuterXE` value. -/
def outerXEVal : GoVal Int := .structV outerXE (.node [.leaf 7, .node [.leaf 9]])

/-- The adapter built from `outerXEVal` with no tag namespace. -/
def outerXESR : StructRecord Int :=
  ⟨"", outerXEVal, ["X", "Y"], [("Y", "Y"), ("X", "X")]⟩

/-- Example: `type EmbB struct { B int }`. -/
def embBFs : FieldList := .cons (.mk "B" true false [] (.baseT "int")) .nil

/-- Example: `type OuterEX struct { EmbB; A int }` with `EmbB` embedded
first. -/
def outerEX : FieldList :=
  .cons (.mk "EmbB" true true [] (.structT embBFs))
    (.cons (.mk "A" true false [] (.baseT "int")) .nil)

/-- An `OuterEX` value. -/
def outerEXVal : GoVal Int := .structV outerEX (.node [.node [.leaf 3], .leaf 4])

/-- Example: `type Dup struct { A int (db:"k"); B int (db:"k") }`: two
fields normalizing to the same key. -/
def dupFs : FieldList :=
  .cons (.mk "A" true false [("db", "k")] (.baseT "int"))
    (.cons (.mk "B" true false [("db", "k")] (.baseT "int")) .nil)

/-- A `Dup` value. -/
def dupVal : GoVal Int := .structV dupFs (.node [.leaf 10, .leaf 20])

/-- The adapter `NewStructRecord(dupVal, "db")` builds: the key `"k"`
appears twice in the key slice and maps to the later field `B`. -/
def dupSR : StructRecord Int :=
  ⟨"db", dupVal, ["k", "k"], [("k", "B"), ("k", "A")]⟩

/-! Lemmas about the map and the extraction loop. -/

theorem mapLookup_nil (k : String) : mapLookup [] k = none := rfl

theorem mapLookup_cons (k1 v k : String) (m : List (String × String)) :
    mapLookup ((k1, v) :: m) k = if k1 == k then some v else mapLookup m k := by
  simp only [mapLookup, List.find?_cons]
  by_cases h : k1 = k
  · simp [h]
  · have hb : (k1 == k) = false := by simpa using h
    simp [h, hb]

theorem extractLoop_cons (tag : String) (e : WEntry) (rest : List WEntry)
    (ts : List String) (m : List (String × String)) :
    extractLoop tag (e :: rest) ts m =
      extractLoop tag rest (ts ++ (keyOf? tag e).toList) (stepMap tag e m) := by
  by_cases hb : (e.exported && !e.anonymous) = true
  · by_cases ht : tag = ""
    · subst ht; simp [extractLoop, extract, keyOf?, stepMap, hb]
    · by_cases hv : headStrD (goSplitComma (tagGet e.tags tag)) = "" ∨
          headStrD (goSplitComma (tagGet e.tags tag)) = "-"
      · simp [extractLoop, extract, keyOf?, stepMap, hb, ht, hv]
      · simp [extractLoop, extract, keyOf?, stepMap, hb, ht, hv]
  · have hb' : (e.exported && !e.anonymous) = false := by
      simpa using hb
    simp [extractLoop, keyOf?, stepMap, hb']

theorem extractLoop_keys (tag : String) :
    ∀ (l : List WEntry) (ts : List String) (m : List (String × String)),
      (extractLoop tag l ts m).1 = ts ++ l.filterMap (keyOf? tag)
  | [], ts, m => by simp [extractLoop]
  | e :: rest, ts, m => by
    rw [extractLoop_cons, extractLoop_keys tag rest]
    cases h : keyOf? tag e <;> simp [h, List.filterMap_cons]

theorem extractLoop_map (tag k : String) :
    ∀ (l : List WEntry) (ts : List String) (m : List (String × String)),
      mapLookup (extractLoop tag l ts m).2 k =
        (match lastContrib tag k l with
         | some e => some e.name
         | none => mapLookup m k)
  | [], ts, m => by simp [extractLoop, lastContrib]
  | e :: rest, ts, m => by
    rw [extractLoop_cons, extractLoop_map tag k rest]
    rcases hl : lastContrib tag k rest with _ | e'
    · have hfr : rest.filter (contribKey tag k) = [] := by
        simpa [lastContrib, List.getLast?_eq_none_iff] using hl
      cases hc : contribKey tag k e with
      | true =>
        have hke : keyOf? tag e = some k := by
          simpa [contribKey] using hc
        simp [lastContrib, List.filter_cons, hc, hfr, stepMap, hke, mapLookup_cons]
      | false =>
        have hrhs : lastContrib tag k (e :: rest) = none := by
          simp [lastContrib, List.filter_cons, hc, hfr]
        rw [hrhs]
        rcases hke : keyOf? tag e with _ | k'
        · simp [stepMap, hke]
        · have hne : k' ≠ k := by
            intro hkk
            subst hkk
            simp [contribKey, hke] at hc
          simp [stepMap, hke, mapLookup_cons, hne]
    · have hfr : rest.filter (contribKey tag k) ≠ [] := by
        intro hnil
        simp [lastContrib, hnil] at hl
      have hrhs : lastContrib tag k (e :: rest) = some e' := by
        rcases hfil : rest.filter (contribKey tag k) with _ | ⟨x, xs⟩
        · exact absurd hfil hfr
        · cases hc : contribKey tag k e with
          | true =>
            rw [lastContrib, List.filter_cons_of_pos (by simp [hc]), hfil]
            rw [lastContrib, hfil] at hl
            simpa [List.getLast?_cons_cons] using hl
          | false =>
            rw [lastContrib, List.filter_cons_of_neg (by simp [hc]), hfil]
            rw [lastContrib, hfil] at hl
            exact hl
      simp [hrhs]

theorem filterMap_count (tag k : String) :
    ∀ l : List WEntry,
      (l.filterMap (keyOf? tag)).count k = (l.filter (contribKey tag k)).length
  | [] => rfl
  | e :: rest => by
    rcases h : keyOf? tag e with _ | k'
    · have hc : contribKey tag k e = false := by simp [contribKey, h]
      simp [List.filterMap_cons, h, List.filter_cons, hc, filterMap_count tag k rest]
    · by_cases hk : k' = k
      · rw [hk] at h
        have hc : contribKey tag k e = true := by simp [contribKey, h]
        simp [List.filterMap_cons, h, List.filter_cons, hc, List.count_cons,
          filterMap_count tag k rest]
      · have hc : contribKey tag k e = false := by simp [contribKey, h, hk]
        simp [List.filterMap_cons, h, List.filter_cons, hc, List.count_cons, hk,
          filterMap_count tag k rest]

/-! Navigation lemmas and navigability of every visible field's path. -/

theorem navigate_nil {α : Type} (v : ValTree α) : navigate v [] = some v := rfl

theorem navigate_append {α : Type} (p q : List Nat) :
    ∀ v : ValTree α, navigate v (p ++ q) =
      (match navigate v p with
       | some w => navigate w q
       | none => none) := by
  induction p with
  | nil => intro v; simp [navigate]
  | cons i rest ih =>
    intro v
    simp only [List.cons_append, navigate]
    cases childAt v i with
    | none => rfl
    | some c => simpa using ih c

theorem getElem?_eq_of_drop_cons {α : Type} :
    ∀ (l : List α) (i : Nat) (v : α) (vs : List α),
      l.drop i = v :: vs → l[i]? = some v
  | [], i, v, vs, h => by simp at h
  | a :: l, 0, v, vs, h => by simpa using congrArg List.head? h
  | a :: l, i + 1, v, vs, h => by
    simpa using getElem?_eq_of_drop_cons l i v vs (by simpa using h)

theorem childAt_node {α : Type} (cs : List (ValTree α)) (i : Nat) :
    childAt (ValTree.node cs) i = cs[i]? := by
  simp [childAt, List.get?_eq_getElem?]

theorem drop_succ_of_drop_cons {α : Type} (l : List α) (i : Nat) (v : α)
    (vs : List α) (h : l.drop i = v :: vs) : l.drop (i + 1) = vs := by
  have : l.drop (i + 1) = (l.drop i).drop 1 := by
    rw [← List.drop_drop]
  rw [this, h]
  rfl

theorem mem_hideAt :
    ∀ (l : List WEntry) (i : Nat) (e : WEntry), e ∈ hideAt l i →
      ∃ eo ∈ l, e.path = eo.path
  | [], _, e, h => by simp [hideAt] at h
  | x :: rest, 0, e, h => by
    rcases (by simpa [hideAt] using h) with h1 | h2
    · exact ⟨x, by simp, by simp [h1]⟩
    · exact ⟨e, by simp [h2], rfl⟩
  | x :: rest, n + 1, e, h => by
    rcases (by simpa [hideAt] using h) with h1 | h2
    · exact ⟨x, by simp, by simp [h1]⟩
    · rcases mem_hideAt rest n e h2 with ⟨eo, hmem, hp⟩
      exact ⟨eo, by simp [hmem], hp⟩

theorem visitField_nav {α : Type} (root : ValTree α) (f : StructField)
    (path : List Nat) (st : WalkState)
    (hpath : ∃ w, navigate root path = some w)
    (hinv : ∀ e ∈ st.fields, NavOk root e) :
    ∀ e ∈ (visitField f path st).fields, NavOk root e := by
  cases f with
  | mk fn ex anon tgs ty =>
    intro e he
    simp only [visitField] at he
    rcases h1 : lookupIdx st.byName fn with _ | oldIdx
    · simp only [h1] at he
      simp only [List.mem_append] at he
      rcases he with he | he
      · exact hinv e he
      · have : e = ⟨fn, ex, anon, tgs, path⟩ := by simpa using he
        subst this
        exact hpath
    · simp only [h1] at he
      rcases h2 : st.fields.get? oldIdx with _ | old
      · simp only [h2] at he
        exact hinv e he
      · simp only [h2] at he
        by_cases hd1 : path.length = old.path.length
        · rw [if_pos hd1] at he
          simp only at he
          rcases mem_hideAt st.fields oldIdx e he with ⟨eo, hmem, hp⟩
          have := hinv eo hmem
          rw [NavOk, hp]
          exact this
        · rw [if_neg hd1] at he
          by_cases hd2 : path.length < old.path.length
          · rw [if_pos hd2] at he
            simp only [List.mem_append] at he
            rcases he with he | he
            · rcases mem_hideAt st.fields oldIdx e he with ⟨eo, hmem, hp⟩
              have := hinv eo hmem
              rw [NavOk, hp]
              exact this
            · have : e = ⟨fn, ex, anon, tgs, path⟩ := by simpa using he
              subst this
              exact hpath
          · rw [if_neg hd2] at he
            exact hinv e he

mutual
theorem walkFL_nav {α : Type} (root : ValTree α) (fs : FieldList) (i : Nat)
    (pfx : List Nat) (st : WalkState) (cs : List (ValTree α))
    (hnav : navigate root pfx = some (.node cs))
    (hm : flMatches fs (cs.drop i) = true)
    (hinv : ∀ e ∈ st.fields, NavOk root e) :
    ∀ e ∈ (walkFL fs i pfx st).fields, NavOk root e :=
  match fs with
  | .nil => by simpa [walkFL] using hinv
  | .cons f rest => by
    rcases hd : cs.drop i with _ | ⟨v, vs⟩
    · rw [hd] at hm
      simp [flMatches] at hm
    · rw [hd] at hm
      have hm2 : fMatches f v = true ∧ flMatches rest vs = true := by
        simpa [flMatches] using hm
      have hfm : fMatches f v = true := hm2.1
      have hrm : flMatches rest (cs.drop (i + 1)) = true := by
        rw [drop_succ_of_drop_cons cs i v vs hd]
        exact hm2.2
      have hget : cs[i]? = some v := getElem?_eq_of_drop_cons cs i v vs hd
      have hnav1 : navigate root (pfx ++ [i]) = some v := by
        rw [navigate_append, hnav]
        simp [navigate, childAt_node, hget]
      have hst2 := walkSF_nav root f (pfx ++ [i]) st v hnav1 hfm hinv
      have := walkFL_nav root rest (i + 1) pfx (walkSF f (pfx ++ [i]) st) cs
        hnav hrm hst2
      simpa [walkFL] using this

theorem walkSF_nav {α : Type} (root : ValTree α) (f : StructField)
    (path : List Nat) (st : WalkState) (v : ValTree α)
    (hnav : navigate root path = some v)
    (hm : fMatches f v = true)
    (hinv : ∀ e ∈ st.fields, NavOk root e) :
    ∀ e ∈ (walkSF f path st).fields, NavOk root e :=
  match f with
  | .mk fn ex false tgs ty => by
    have hst1 := visitField_nav root (.mk fn ex false tgs ty) path st ⟨v, hnav⟩ hinv
    simpa [walkSF] using hst1
  | .mk fn ex true tgs ty => by
    have hst1 := visitField_nav root (.mk fn ex true tgs ty) path st ⟨v, hnav⟩ hinv
    have hty : tyMatches ty v = true := by simpa [fMatches] using hm
    have := walkTy_nav root ty path (visitField (.mk fn ex true tgs ty) path st)
      v hnav hty hst1
    simpa [walkSF] using this

theorem walkTy_nav {α : Type} (root : ValTree α) (t : GoType)
    (path : List Nat) (st : WalkState) (v : ValTree α)
    (hnav : navigate root path = some v)
    (hm : tyMatches t v = true)
    (hinv : ∀ e ∈ st.fields, NavOk root e) :
    ∀ e ∈ (walkTy t path st).fields, NavOk root e :=
  match t with
  | .baseT n => by simpa [walkTy] using hinv
  | .ptrT p => by simpa [walkTy] using hinv
  | .structT fs => by
    cases v with
    | leaf x => simp [tyMatches] at hm
    | node cs =>
      have := walkFL_nav root fs 0 path st cs hnav (by simpa [tyMatches] using hm) hinv
      simpa [walkTy] using this
end

theorem visible_nav {α : Type} (fs : FieldList) (cs : List (ValTree α))
    (hm : flMatches fs cs = true) :
    ∀ e ∈ visibleFields fs, ∃ w, navigate (ValTree.node cs) e.path = some w := by
  intro e he
  have hmem : e ∈ (walkFL fs 0 [] ⟨[], []⟩).fields := (List.mem_filter.mp he).1
  exact walkFL_nav (ValTree.node cs) fs 0 [] ⟨[], []⟩ cs rfl (by simpa using hm)
    (by simp) e hmem

/-! Inversion of a successful build, and the key-to-value chain. -/

theorem mem_of_getLast?_eq_some {α : Type} :
    ∀ {l : List α} {a : α}, l.getLast? = some a → a ∈ l
  | [], a, h => by simp at h
  | [x], a, h => by
    simp [List.getLast?_singleton] at h
    simp [h]
  | x :: y :: l, a, h => by
    rw [List.getLast?_cons_cons] at h
    exact List.mem_cons_of_mem x (mem_of_getLast?_eq_some h)

theorem build_ok_shape {α : Type} {strct : GoVal α} {tn : List String}
    {sr : StructRecord α} (h : newStructRecord strct tn = .ok sr) :
    ∃ fs : FieldList, derefFields strct = some fs ∧
      sr.tagName = headTag tn ∧ sr.record = strct ∧
      sr.tags = (extractLoop (headTag tn) (visibleFields fs) [] []).1 ∧
      sr.tagsToName = (extractLoop (headTag tn) (visibleFields fs) [] []).2 := by
  cases strct with
  | nilV => simp [newStructRecord, GoVal.typeOf] at h
  | baseV n v => simp [newStructRecord, GoVal.typeOf, derefT] at h
  | structV fs vals =>
    have h' := h
    simp only [newStructRecord, GoVal.typeOf, derefT] at h'
    injection h' with h''
    subst h''
    exact ⟨fs, rfl, rfl, rfl, rfl, rfl⟩
  | ptrV p a =>
    cases p with
    | baseT n => simp [newStructRecord, GoVal.typeOf, derefT] at h
    | ptrT q => simp [newStructRecord, GoVal.typeOf, derefT] at h
    | structT fs =>
      have h' := h
      simp only [newStructRecord, GoVal.typeOf, derefT] at h'
      injection h' with h''
      subst h''
      exact ⟨fs, rfl, rfl, rfl, rfl, rfl⟩

theorem indirect_agrees {α : Type} (σ : Nat → ValTree α) {strct : GoVal α}
    {fs fs2 : FieldList} {vals : ValTree α}
    (hd : derefFields strct = some fs)
    (hi : indirectVal σ strct = some (fs2, vals)) : fs2 = fs := by
  cases strct with
  | nilV => simp [derefFields, GoVal.typeOf] at hd
  | baseV n v => simp [derefFields, GoVal.typeOf, derefT] at hd
  | structV fs' vals' =>
    simp only [derefFields, GoVal.typeOf, derefT] at hd
    simp only [indirectVal] at hi
    injection hd with hd'
    injection hi with hi'
    injection hi' with h1 h2
    rw [← h1, ← hd']
  | ptrV p a =>
    cases p with
    | baseT n => simp [derefFields, GoVal.typeOf, derefT] at hd
    | ptrT q => simp [derefFields, GoVal.typeOf, derefT] at hd
    | structT fs' =>
      simp only [derefFields, GoVal.typeOf, derefT] at hd
      simp only [indirectVal] at hi
      injection hd with hd'
      injection hi with hi'
      injection hi' with h1 h2
      rw [← h1, ← hd']

theorem keys_have_mapping (tag : String) (l : List WEntry) (k : String)
    (hk : k ∈ (extractLoop tag l [] []).1) :
    ∃ e, e ∈ l ∧ contribKey tag k e = true ∧
      mapLookup (extractLoop tag l [] []).2 k = some e.name := by
  rw [extractLoop_keys] at hk
  simp only [List.nil_append, List.mem_filterMap] at hk
  rcases hk with ⟨e0, he0, hke0⟩
  have hfil : l.filter (contribKey tag k) ≠ [] := by
    intro hnil
    have : e0 ∈ l.filter (contribKey tag k) := by
      rw [List.mem_filter]
      exact ⟨he0, by simp [contribKey, hke0]⟩
    rw [hnil] at this
    simp at this
  rcases hlast : lastContrib tag k l with _ | e1
  · exact absurd (List.getLast?_eq_none_iff.mp hlast) hfil
  · have he1f : e1 ∈ l.filter (contribKey tag k) := mem_of_getLast?_eq_some hlast
    have he1 := List.mem_filter.mp he1f
    refine ⟨e1, he1.1, he1.2, ?_⟩
    rw [extractLoop_map, hlast]

theorem getMapLookup_some_of_mem_keys {α : Type} {strct : GoVal α}
    {tn : List String} {sr : StructRecord α} {fs : FieldList}
    (hb : newStructRecord strct tn = .ok sr)
    (hd : derefFields strct = some fs) :
    ∀ k ∈ sr.tags, ∃ e, e ∈ visibleFields fs ∧ contribKey (headTag tn) k e = true ∧
      mapLookup sr.tagsToName k = some e.name := by
  rcases build_ok_shape hb with ⟨fs0, hd0, _, _, htags, hmap⟩
  rw [hd0] at hd
  injection hd with hfs
  subst hfs
  intro k hk
  rw [htags] at hk
  rcases keys_have_mapping (headTag tn) (visibleFields fs0) k hk with ⟨e, he, hc, hm⟩
  rw [hmap]
  exact ⟨e, he, hc, hm⟩

theorem readField_found_of_visible {α : Type} {fs : FieldList} {cs : List (ValTree α)}
    (hm : flMatches fs cs = true) {nm : String}
    (hex : ∃ e ∈ visibleFields fs, e.name = nm) :
    ∃ w, readField fs (ValTree.node cs) nm = .found w := by
  have hsome : ((visibleFields fs).find? (fun e => e.name == nm)).isSome = true := by
    rw [List.find?_isSome]
    rcases hex with ⟨e, he, hn⟩
    exact ⟨e, he, by simp [hn]⟩
  rcases hf : (visibleFields fs).find? (fun e => e.name == nm) with _ | ef
  · rw [hf] at hsome
    simp at hsome
  · have hefmem : ef ∈ visibleFields fs := List.mem_of_find?_eq_some hf
    rcases visible_nav fs cs hm ef hefmem with ⟨w, hw⟩
    exact ⟨w, by simp [readField, hf, hw]⟩

theorem get_found_of_mem_keys {α : Type} (σ : Nat → ValTree α) {strct : GoVal α}
    {tn : List String} {sr : StructRecord α} {fs : FieldList} {vals : ValTree α}
    (hb : newStructRecord strct tn = .ok sr)
    (hi : indirectVal σ strct = some (fs, vals))
    (hm : tyMatches (.structT fs) vals = true) :
    ∀ k ∈ sr.tags, ∃ w, Get σ sr k = .found w := by
  rcases build_ok_shape hb with ⟨fs0, hd0, _, hrec, htags, hmap⟩
  have hfs : fs = fs0 := indirect_agrees σ hd0 hi
  subst hfs
  intro k hk
  rcases getMapLookup_some_of_mem_keys hb hd0 k hk with ⟨e, he, hc, hml⟩
  cases vals with
  | leaf x => simp [tyMatches] at hm
  | node cs =>
    have hflm : flMatches fs cs = true := by simpa [tyMatches] using hm
    rcases readField_found_of_visible hflm ⟨e, he, rfl⟩ with ⟨w, hw⟩
    refine ⟨w, ?_⟩
    rw [Get, hml, hrec, hi]
    exact hw

theorem getValsLoop_all_found {α : Type} (σ : Nat → ValTree α) (sr : StructRecord α) :
    ∀ (ks : List String) (acc : List (ValTree α)),
      (∀ k ∈ ks, ∃ v, Get σ sr k = .found v) →
      ∃ l, getValsLoop σ sr ks acc = .vals (acc ++ l) ∧ l.length = ks.length ∧
        ∀ (i : Nat) (h1 : i < ks.length) (h2 : i < l.length),
          Get σ sr (ks.get ⟨i, h1⟩) = .found (l.get ⟨i, h2⟩)
  | [], acc, _ => ⟨[], by simp [getValsLoop], rfl, fun i h1 => by simp at h1⟩
  | k :: rest, acc, hall => by
    rcases hall k (by simp) with ⟨v, hv⟩
    rcases getValsLoop_all_found σ sr rest (acc ++ [v])
        (fun k2 hk2 => hall k2 (by simp [hk2])) with ⟨l, hl, hlen, hcorr⟩
    refine ⟨v :: l, ?_, by simpa using hlen, ?_⟩
    · simp only [getValsLoop, hv, hl]
      simp
    · intro i h1 h2
      cases i with
      | zero => simpa using hv
      | succ j =>
        have h1' : j < rest.length := by simpa using h1
        have h2' : j < l.length := by simpa using h2
        simpa using hcorr j h1' h2'

theorem getValsLoop_never_nil {α : Type} (σ : Nat → ValTree α) (sr : StructRecord α) :
    ∀ (ks : List String) (acc : List (ValTree α)),
      (∀ k ∈ ks, mapLookup sr.tagsToName k ≠ none) →
      getValsLoop σ sr ks acc ≠ .nilRes
  | [], acc, _ => by simp [getValsLoop]
  | k :: rest, acc, hall => by
    rcases hg : Get σ sr k with w | _ | _
    · simp only [getValsLoop, hg]
      exact getValsLoop_never_nil σ sr rest (acc ++ [w])
        (fun k2 hk2 => hall k2 (by simp [hk2]))
    · exfalso
      rcases hml : mapLookup sr.tagsToName k with _ | nm
      · exact absurd hml (hall k (by simp))
      · simp only [Get, hml] at hg
        rcases hiv : indirectVal σ sr.record with _ | fv
        · simp only [hiv] at hg
          exact GetResult.noConfusion hg
        · simp only [hiv, readField] at hg
          rcases hfd : (visibleFields fv.1).find? (fun e => e.name == nm) with _ | ef
          · simp only [hfd] at hg
            exact GetResult.noConfusion hg
          · simp only [hfd] at hg
            rcases hnv : navigate fv.2 ef.path with _ | w
            · simp only [hnv] at hg
              exact GetResult.noConfusion hg
            · simp only [hnv] at hg
              exact GetResult.noConfusion hg
    · simp only [getValsLoop, hg]
      simp

/-! Mutation, flat structs, and tag-splitting lemmas. -/

theorem navigate_setPath {α : Type} :
    ∀ (p : List Nat) (v u w : ValTree α),
      navigate v p = some u → navigate (setPath v p w) p = some w
  | [], v, u, w, _ => rfl
  | i :: rest, v, u, w, h => by
    cases v with
    | leaf x => simp [navigate, childAt] at h
    | node cs =>
      rcases hc : cs.get? i with _ | c
      · rw [navigate, childAt] at h
        rw [hc] at h
        exact Option.noConfusion h
      · have hu : navigate c rest = some u := by
          rw [navigate, childAt] at h
          rw [hc] at h
          exact h
        have hlen : i < cs.length := by
          have := hc
          rw [List.get?_eq_getElem?] at this
          exact (List.getElem?_eq_some_iff.mp this).1
        have hset : setPath (ValTree.node cs) (i :: rest) w =
            .node (cs.set i (setPath c rest w)) := by
          simp only [setPath, hc]
        rw [hset, navigate, childAt]
        rw [List.get?_eq_getElem?, List.getElem?_set_self hlen]
        exact navigate_setPath rest c u w hu

theorem lookupIdx_cons (n1 : String) (i : Nat) (bn : List (String × Nat)) (n : String) :
    lookupIdx ((n1, i) :: bn) n = if n1 == n then some i else lookupIdx bn n := by
  simp only [lookupIdx, List.find?_cons]
  by_cases h : n1 = n
  · simp [h]
  · have hb : (n1 == n) = false := by simpa using h
    simp [h, hb]

theorem mem_declEntries :
    ∀ (fs : FieldList) (i : Nat) (pfx : List Nat) (e : WEntry),
      e ∈ declEntries fs i pfx →
      ∃ f ∈ fs.toList, e.name = f.name ∧ e.exported = f.exported ∧
        e.anonymous = f.anonymous ∧ e.tags = f.tags
  | .nil, _, _, e, h => by simp [declEntries] at h
  | .cons (.mk n ex an tg ty) rest, i, pfx, e, h => by
    rcases (by simpa [declEntries] using h) with h1 | h2
    · exact ⟨.mk n ex an tg ty, by simp [FieldList.toList],
        by simp [h1, StructField.name], by simp [h1, StructField.exported],
        by simp [h1, StructField.anonymous], by simp [h1, StructField.tags]⟩
    · rcases mem_declEntries rest (i + 1) pfx e h2 with ⟨f, hf, hp⟩
      exact ⟨f, by simp [FieldList.toList, hf], hp⟩

theorem walkFL_flat :
    ∀ (fs : FieldList) (i : Nat) (pfx : List Nat) (st : WalkState),
      (∀ f ∈ fs.toList, f.anonymous = false ∧ f.name ≠ "") →
      (fs.toList.map StructField.name).Nodup →
      (∀ f ∈ fs.toList, lookupIdx st.byName f.name = none) →
      (walkFL fs i pfx st).fields = st.fields ++ declEntries fs i pfx
  | .nil, i, pfx, st, _, _, _ => by simp [walkFL, declEntries]
  | .cons (.mk n ex an tg ty) rest, i, pfx, st, hflat, hnodup, hfresh => by
    have hhead := hflat (.mk n ex an tg ty) (by simp [FieldList.toList])
    have han : an = false := by simpa [StructField.anonymous] using hhead.1
    subst han
    have hlk : lookupIdx st.byName n = none := by
      simpa [StructField.name] using hfresh (.mk n ex false tg ty) (by simp [FieldList.toList])
    have hstep : walkSF (.mk n ex false tg ty) (pfx ++ [i]) st =
        ⟨st.fields ++ [⟨n, ex, false, tg, pfx ++ [i]⟩],
         (n, st.fields.length) :: st.byName⟩ := by
      simp only [walkSF, visitField, hlk]
      rfl
    have hnod : (rest.toList.map StructField.name).Nodup := by
      simpa [FieldList.toList] using hnodup.of_cons
    have hnmem : ∀ f ∈ rest.toList, f.name ≠ n := by
      intro f hf hfn
      have : n ∉ rest.toList.map StructField.name := by
        have := hnodup
        simp only [FieldList.toList, List.map_cons, List.nodup_cons, StructField.name] at this
        exact this.1
      exact this (by
        rw [← hfn]
        exact List.mem_map_of_mem StructField.name hf)
    have ih := walkFL_flat rest (i + 1) pfx
      ⟨st.fields ++ [⟨n, ex, false, tg, pfx ++ [i]⟩], (n, st.fields.length) :: st.byName⟩
      (fun f hf => hflat f (by simp [FieldList.toList, hf]))
      hnod
      (by
        intro f hf
        rw [lookupIdx_cons]
        have hne : (n == f.name) = false := by
          simp
          intro he
          exact absurd he.symm (hnmem f hf)
        rw [hne]
        simp only [Bool.false_eq_true, if_false]
        exact hfresh f (by simp [FieldList.toList, hf]))
    calc (walkFL (.cons (.mk n ex false tg ty) rest) i pfx st).fields
        = (walkFL rest (i + 1) pfx (walkSF (.mk n ex false tg ty) (pfx ++ [i]) st)).fields := by
          simp [walkFL]
      _ = st.fields ++ [⟨n, ex, false, tg, pfx ++ [i]⟩] ++ declEntries rest (i + 1) pfx := by
          rw [hstep, ih]
      _ = st.fields ++ declEntries (.cons (.mk n ex false tg ty) rest) i pfx := by
          simp [declEntries]

theorem visibleFields_flat (fs : FieldList) (hflat : flatStruct fs) :
    visibleFields fs = declEntries fs 0 [] := by
  rw [visibleFields, walkFL_flat fs 0 [] ⟨[], []⟩ hflat.1 hflat.2 (fun f _ => rfl)]
  simp only [List.nil_append]
  rw [List.filter_eq_self]
  intro e he
  rcases mem_declEntries fs 0 [] e he with ⟨f, hf, hn, _⟩
  have := (hflat.1 f hf).2
  simp [hn, this]

theorem filterMap_declEntries (tag : String) :
    ∀ (fs : FieldList) (i : Nat) (pfx : List Nat),
      (declEntries fs i pfx).filterMap (keyOf? tag) = specDeclKeys fs tag
  | .nil, _, _ => rfl
  | .cons (.mk n ex an tg ty) rest, i, pfx => by
    have hkey : keyOf? tag ⟨n, ex, an, tg, pfx ++ [i]⟩ =
        specFieldKey tag (.mk n ex an tg ty) := rfl
    simp only [declEntries, List.filterMap_cons, specDeclKeys, FieldList.toList,
      List.filterMap_cons, hkey]
    rcases specFieldKey tag (.mk n ex an tg ty) with _ | k
    · exact filterMap_declEntries tag rest (i + 1) pfx
    · rw [filterMap_declEntries tag rest (i + 1) pfx]
      rfl

theorem splitCharList_before_comma :
    ∀ (p rest : List Char), (',' ∈ p → False) →
      splitCharList (p ++ ',' :: rest) = p :: splitCharList rest
  | [], rest, _ => by simp [splitCharList]
  | c :: p, rest, hp => by
    have hc : ¬ c = ',' := fun h => hp (by simp [h])
    have ih := splitCharList_before_comma p rest (fun h => hp (by simp [h]))
    simp [splitCharList, hc, ih]

theorem goSplitComma_head (p rest : List Char) (hp : ',' ∈ p → False) :
    headStrD (goSplitComma (String.mk (p ++ ',' :: rest))) = String.mk p := by
  have hdata : (String.mk (p ++ ',' :: rest)).data = p ++ ',' :: rest := rfl
  rw [goSplitComma, hdata, splitCharList_before_comma p rest hp]
  rfl

theorem keyOf?_included {tag : String} {e : WEntry} {k : String}
    (h : keyOf? tag e = some k) : e.exported = true ∧ e.anonymous = false := by
  by_cases hb : (e.exported && !e.anonymous) = true
  · have := hb
    simp only [Bool.and_eq_true, Bool.not_eq_true'] at this
    exact this
  · rw [keyOf?, if_neg hb] at h
    exact Option.noConfusion h

theorem keyOf?_none_of_excluded {tag : String} {f : WEntry}
    (hns : ¬ tag = "")
    (hexcl : headStrD (goSplitComma (tagGet f.tags tag)) = "" ∨
      headStrD (goSplitComma (tagGet f.tags tag)) = "-") :
    keyOf? tag f = none := by
  by_cases hb : (f.exported && !f.anonymous) = true
  · simp [keyOf?, hb, hns, hexcl]
  · simp [keyOf?, hb]

/-! The claims. -/

/-- C1, counterexample: at the untyped nil input the factory neither
succeeds nor returns `ErrNotAStruct` — it panics — so the claimed
dichotomy "succeeds iff struct after one dereference, otherwise
`ErrNotAStruct`" fails at this input. -/
theorem claim_C1_counterexample :
    newStructRecord (GoVal.nilV : GoVal Int) [] = .panicked ∧
      (∀ sr : StructRecord Int, newStructRecord (GoVal.nilV : GoVal Int) [] ≠ .ok sr) ∧
      newStructRecord (GoVal.nilV : GoVal Int) [] ≠ .err :=
  ⟨rfl, fun _ h => BuildResult.noConfusion h, fun h => BuildResult.noConfusion h⟩

/-- C1, amended: for every input that carries a runtime type descriptor
(every input other than the untyped nil), `NewStructRecord` succeeds if
and only if the type after at most one pointer dereference is a struct
type, and in every other such case it returns `ErrNotAStruct`. -/
theorem claim_C1 {α : Type} (v : GoVal α) (tn : List String) (t0 : GoType)
    (h : v.typeOf = some t0) :
    ((∃ sr, newStructRecord v tn = .ok sr) ↔ isStructAfterDeref t0 = true) ∧
      (isStructAfterDeref t0 = false → newStructRecord v tn = .err) := by
  cases v with
  | nilV => exact Option.noConfusion h
  | structV fs vals =>
    have ht : t0 = .structT fs := by
      injection h with h1
      exact h1.symm
    subst ht
    exact ⟨⟨fun _ => rfl, fun _ => ⟨_, rfl⟩⟩,
      fun hf => absurd hf (by simp [isStructAfterDeref, derefT])⟩
  | baseV n x =>
    have ht : t0 = .baseT n := by
      injection h with h1
      exact h1.symm
    subst ht
    refine ⟨⟨fun hex => ?_, fun hs => absurd hs (by simp [isStructAfterDeref, derefT])⟩,
      fun _ => rfl⟩
    rcases hex with ⟨sr, hsr⟩
    exact BuildResult.noConfusion hsr
  | ptrV p a =>
    have ht : t0 = .ptrT p := by
      injection h with h1
      exact h1.symm
    subst ht
    cases p with
    | structT fs =>
      exact ⟨⟨fun _ => rfl, fun _ => ⟨_, rfl⟩⟩,
        fun hf => absurd hf (by simp [isStructAfterDeref, derefT])⟩
    | baseT n =>
      refine ⟨⟨fun hex => ?_, fun hs => absurd hs (by simp [isStructAfterDeref, derefT])⟩,
        fun _ => rfl⟩
      rcases hex with ⟨sr, hsr⟩
      exact BuildResult.noConfusion hsr
    | ptrT q =>
      refine ⟨⟨fun hex => ?_, fun hs => absurd hs (by simp [isStructAfterDeref, derefT])⟩,
        fun _ => rfl⟩
      rcases hex with ⟨sr, hsr⟩
      exact BuildResult.noConfusion hsr

/-- C1, witness: the amended dichotomy applied at the concrete non-struct
input `42`. -/
theorem claim_C1_witness :
    ((∃ sr, newStructRecord (GoVal.baseV "int" (42 : Int)) [] = .ok sr) ↔
        isStructAfterDeref (.baseT "int") = true) ∧
      (isStructAfterDeref (.baseT "int") = false →
        newStructRecord (GoVal.baseV "int" (42 : Int)) [] = .err) :=
  claim_C1 (GoVal.baseV "int" (42 : Int)) [] (.baseT "int") rfl

/-- C2, counterexample: for `OuterXE` (declared fields `X` and the
embedded `Inner` whose inner field is `Y`), the promoted field `Y` — not
declared at the immediate level — contributes the key `"Y"` to the key
sequence, so the enumeration does recurse into embedded fields'
promoted fields. -/
theorem claim_C2_counterexample :
    newStructRecord outerXEVal [] = .ok outerXESR ∧
      GetKeys outerXESR = ["X", "Y"] ∧
      (∀ f ∈ outerXE.toList, f.name ≠ "Y") ∧
      (∃ f ∈ innerFs.toList, f.name = "Y") :=
  ⟨rfl, rfl, by decide, by decide⟩

/-- C2, amended: the keys of a built adapter are exactly those
contributed by exported, non-anonymous fields among the VISIBLE fields
of the struct (Go's `reflect.VisibleFields`), which excludes the
embedded fields themselves but includes their exported promoted
fields. -/
theorem claim_C2 {α : Type} {strct : GoVal α} {tn : List String}
    {sr : StructRecord α} {fs : FieldList}
    (hb : newStructRecord strct tn = .ok sr)
    (hd : derefFields strct = some fs) (k : String) :
    k ∈ GetKeys sr ↔
      ∃ e ∈ visibleFields fs, e.exported = true ∧ e.anonymous = false ∧
        keyOf? (headTag tn) e = some k := by
  rcases build_ok_shape hb with ⟨fs0, hd0, _, _, htags, _⟩
  rw [hd0] at hd
  injection hd with hfs
  subst hfs
  rw [GetKeys, htags, extractLoop_keys]
  simp only [List.nil_append, List.mem_filterMap]
  constructor
  · rintro ⟨e, he, hke⟩
    rcases keyOf?_included hke with ⟨hex, han⟩
    exact ⟨e, he, hex, han, hke⟩
  · rintro ⟨e, he, _, _, hke⟩
    exact ⟨e, he, hke⟩

/-- C2, witness: the amended enumeration applied to the embedded-field
example at the promoted key `"Y"`. -/
theorem claim_C2_witness :
    "Y" ∈ GetKeys outerXESR ↔
      ∃ e ∈ visibleFields outerXE, e.exported = true ∧ e.anonymous = false ∧
        keyOf? (headTag []) e = some "Y" :=
  @claim_C2 Int outerXEVal [] outerXESR outerXE rfl rfl "Y"

/-- C3: for an adapter wrapping a pointer to a struct, assigning new
contents to the field behind an exposed key and then calling `Get` on
that key returns the new contents, not the contents at construction
time — `Get` re-reads the live struct on every call. -/
theorem claim_C3 {α : Type} (σ : Nat → ValTree α) {sr : StructRecord α}
    {fs : FieldList} {a : Nat} {k nm : String} {v0 : ValTree α}
    (hrec : sr.record = .ptrV (.structT fs) a)
    (hml : mapLookup sr.tagsToName k = some nm)
    (hget : Get σ sr k = .found v0) (w : ValTree α) :
    Get (heapUpdate σ a (setField fs (σ a) nm w)) sr k = .found w := by
  simp only [Get, hml, hrec, indirectVal] at hget ⊢
  rcases hf : (visibleFields fs).find? (fun e => e.name == nm) with _ | ef
  · simp only [readField, hf] at hget
    exact GetResult.noConfusion hget
  · simp only [readField, hf] at hget
    rcases hnv : navigate (σ a) ef.path with _ | u
    · simp only [hnv] at hget
      exact GetResult.noConfusion hget
    · have hheap : heapUpdate σ a (setField fs (σ a) nm w) a =
          setPath (σ a) ef.path w := by
        simp [heapUpdate, setField, hf]
      rw [hheap]
      simp only [readField, hf, navigate_setPath ef.path (σ a) u w hnv]

/-- C3, witness: mutating the `ID` field behind the pointer-wrapped flat
struct and reading key `"id"` returns the new contents 42. -/
theorem claim_C3_witness :
    Get (heapUpdate exHeap 0 (setField flatFs (exHeap 0) "ID" (.leaf 42)))
      ptrFlatSR "id" = .found (.leaf 42) :=
  @claim_C3 Int exHeap ptrFlatSR flatFs 0 "id" "ID" (.leaf 1) rfl rfl rfl (.leaf 42)

/-- C4, counterexample: for `OuterEX` (embedded `EmbB` first, then `A`),
the key sequence is `["B", "A"]` — the promoted key `B` appears, in walk
order — while the declaration order of the struct's own fields with
excluded fields omitted is `["A"]`. -/
theorem claim_C4_counterexample :
    newStructRecord outerEXVal [] =
        .ok ⟨"", outerEXVal, ["B", "A"], [("A", "A"), ("B", "B")]⟩ ∧
      specDeclKeys outerEX "" = ["A"] ∧
      (["B", "A"] : List String) ≠ ["A"] :=
  ⟨rfl, by decide, by decide⟩

/-- C4, amended: for a struct with no embedded fields (and, as Go
guarantees, nonempty distinct declared names), the key sequence equals
the declared fields in declaration order with excluded fields omitted;
with embedded fields the sequence instead follows the preorder walk of
the visible fields. -/
theorem claim_C4 {α : Type} {strct : GoVal α} {tn : List String}
    {sr : StructRecord α} {fs : FieldList}
    (hb : newStructRecord strct tn = .ok sr)
    (hd : derefFields strct = some fs)
    (hflat : flatStruct fs) :
    GetKeys sr = specDeclKeys fs (headTag tn) := by
  rcases build_ok_shape hb with ⟨fs0, hd0, _, _, htags, _⟩
  rw [hd0] at hd
  injection hd with hfs
  subst hfs
  rw [GetKeys, htags, extractLoop_keys, visibleFields_flat fs0 hflat]
  simp only [List.nil_append]
  exact filterMap_declEntries (headTag tn) fs0 0 []

/-- C4, witness: the flat example's keys are its declaration-order
keys. -/
theorem claim_C4_witness : GetKeys exFlatSR = specDeclKeys flatFs (headTag ["db"]) :=
  @claim_C4 Int flatVal ["db"] exFlatSR flatFs rfl rfl (by decide)

/-- C5: for a built adapter over well-typed contents, `GetVals` returns
a slice of the same length as `GetKeys`, and entry `i` is exactly what
`Get` returns (with `found = true`) on key `i`. -/
theorem claim_C5 {α : Type} (σ : Nat → ValTree α) {strct : GoVal α}
    {tn : List String} {sr : StructRecord α} {fs : FieldList} {vals : ValTree α}
    (hb : newStructRecord strct tn = .ok sr)
    (hi : indirectVal σ strct = some (fs, vals))
    (hm : tyMatches (.structT fs) vals = true) :
    ∃ l, GetVals σ sr = .vals l ∧ l.length = (GetKeys sr).length ∧
      ∀ (i : Nat) (h1 : i < (GetKeys sr).length) (h2 : i < l.length),
        Get σ sr ((GetKeys sr).get ⟨i, h1⟩) = .found (l.get ⟨i, h2⟩) := by
  have hall := get_found_of_mem_keys σ hb hi hm
  rcases getValsLoop_all_found σ sr sr.tags [] hall with ⟨l, hl, hlen, hcorr⟩
  exact ⟨l, by simpa [GetVals] using hl, by simpa [GetKeys] using hlen, hcorr⟩

/-- C5, witness: the keys/values alignment at the flat example. -/
theorem claim_C5_witness :
    ∃ l, GetVals exHeap exFlatSR = .vals l ∧ l.length = (GetKeys exFlatSR).length ∧
      ∀ (i : Nat) (h1 : i < (GetKeys exFlatSR).length) (h2 : i < l.length),
        Get exHeap exFlatSR ((GetKeys exFlatSR).get ⟨i, h1⟩) = .found (l.get ⟨i, h2⟩) :=
  @claim_C5 Int exHeap flatVal ["db"] exFlatSR flatFs
    (.node [.leaf 1, .leaf 2, .leaf 3]) rfl rfl rfl

/-- C6: when the tag value in the selected namespace contains a comma,
only the substring before the first comma is used as the exposed key
(provided that prefix is not itself excluded). -/
theorem claim_C6 (e : WEntry) (ns : String) (m : List (String × String))
    (p rest : List Char)
    (hns : ¬ ns = "")
    (htag : tagGet e.tags ns = String.mk (p ++ ',' :: rest))
    (hp : ',' ∈ p → False)
    (hk1 : ¬ String.mk p = "")
    (hk2 : ¬ String.mk p = "-") :
    extract e ns m = ([String.mk p], (String.mk p, e.name) :: m) := by
  have hhead : headStrD (goSplitComma (tagGet e.tags ns)) = String.mk p := by
    rw [htag]
    exact goSplitComma_head p rest hp
  simp only [extract, hhead]
  rw [if_neg hns, if_neg]
  rintro (h | h)
  · exact hk1 h
  · exact hk2 h

/-- C6, witness: a field tagged `name,omitempty` under namespace `db`
yields exposed key `name`. -/
theorem claim_C6_witness :
    extract ⟨"Name", true, false, [("db", "name,omitempty")], [1]⟩ "db" [] =
      (["name"], [("name", "Name")]) :=
  claim_C6 ⟨"Name", true, false, [("db", "name,omitempty")], [1]⟩ "db" []
    ("name".data) ("omitempty".data) (by decide) (by decide) (by decide)
    (by decide) (by decide)

/-- C7: under a nonempty tag namespace, a field whose tag value (before
the first comma) is empty or `"-"` contributes nothing: `extract`
returns no key and leaves the map unchanged, and deleting the field
from the processed sequence does not change the extraction result. -/
theorem claim_C7 (tag : String) (f : WEntry) (l1 l2 : List WEntry)
    (ts : List String) (m : List (String × String))
    (hns : ¬ tag = "")
    (hexcl : headStrD (goSplitComma (tagGet f.tags tag)) = "" ∨
      headStrD (goSplitComma (tagGet f.tags tag)) = "-") :
    extract f tag m = ([], m) ∧
      extractLoop tag (l1 ++ f :: l2) ts m = extractLoop tag (l1 ++ l2) ts m := by
  have hko : keyOf? tag f = none := keyOf?_none_of_excluded hns hexcl
  constructor
  · simp only [extract]
    rw [if_neg hns, if_pos hexcl]
  · induction l1 generalizing ts m with
    | nil =>
      simp only [List.nil_append]
      rw [extractLoop_cons]
      simp [hko, stepMap]
    | cons x l1 ih =>
      simp only [List.cons_append]
      rw [extractLoop_cons, extractLoop_cons]
      exact ih _ _

/-- C7, witness: a field tagged `"-"` under namespace `db` is dropped
from both keys and map. -/
theorem claim_C7_witness :
    extract ⟨"Skip", true, false, [("db", "-")], [0]⟩ "db" [] = ([], []) ∧
      extractLoop "db" ([] ++ ⟨"Skip", true, false, [("db", "-")], [0]⟩ :: []) [] [] =
        extractLoop "db" ([] ++ []) [] [] :=
  claim_C7 "db" ⟨"Skip", true, false, [("db", "-")], [0]⟩ [] [] [] []
    (by decide) (Or.inr (by decide))

/-- C8: every key of a built adapter has an entry in `tagsToName`, and
consequently `GetVals` never takes its internal-inconsistency branch
(the `nil` slice) on a factory-built adapter, whatever the heap. -/
theorem claim_C8 {α : Type} {strct : GoVal α} {tn : List String}
    {sr : StructRecord α}
    (hb : newStructRecord strct tn = .ok sr) :
    (∀ k ∈ GetKeys sr, ∃ nm, mapLookup sr.tagsToName k = some nm) ∧
      (∀ σ : Nat → ValTree α, GetVals σ sr ≠ .nilRes) := by
  rcases build_ok_shape hb with ⟨fs0, hd0, _, _, _, _⟩
  have h1 : ∀ k ∈ sr.tags, ∃ nm, mapLookup sr.tagsToName k = some nm := by
    intro k hk
    rcases getMapLookup_some_of_mem_keys hb hd0 k hk with ⟨e, _, _, hml⟩
    exact ⟨e.name, hml⟩
  refine ⟨h1, fun σ => ?_⟩
  exact getValsLoop_never_nil σ sr sr.tags []
    (fun k hk => by
      rcases h1 k hk with ⟨nm, hml⟩
      simp [hml])

/-- C8, witness: at the flat example, key `"id"` resolves in the map and
`GetVals` does not return the `nil` sentinel. -/
theorem claim_C8_witness :
    (∃ nm, mapLookup exFlatSR.tagsToName "id" = some nm) ∧
      GetVals exHeap exFlatSR ≠ .nilRes := by
  have h := @claim_C8 Int flatVal ["db"] exFlatSR rfl
  exact ⟨h.1 "id" (by decide), h.2 exHeap⟩

/-- C9: when several fields normalize to the same key, construction
still succeeds; the mapping entry for the key is the name of the LAST
contributing field in walk order (the silent overwrite), `Get` on the
key reads that later field, and the key occurs in `GetKeys` once per
contributing field (no deduplication). -/
theorem claim_C9 {α : Type} {strct : GoVal α} {tn : List String}
    {sr : StructRecord α} {fs : FieldList}
    (hb : newStructRecord strct tn = .ok sr)
    (hd : derefFields strct = some fs) (k : String) :
    (mapLookup sr.tagsToName k =
      (match lastContrib (headTag tn) k (visibleFields fs) with
       | some e => some e.name
       | none => none)) ∧
    (GetKeys sr).count k =
      ((visibleFields fs).filter (contribKey (headTag tn) k)).length ∧
    (∀ e, lastContrib (headTag tn) k (visibleFields fs) = some e →
      ∀ σ : Nat → ValTree α, Get σ sr k =
        (match indirectVal σ sr.record with
         | some fv => readField fv.1 fv.2 e.name
         | none => GetResult.panicked)) := by
  rcases build_ok_shape hb with ⟨fs0, hd0, _, _, htags, hmap⟩
  rw [hd0] at hd
  injection hd with hfs
  subst hfs
  have h1 : mapLookup sr.tagsToName k =
      (match lastContrib (headTag tn) k (visibleFields fs0) with
       | some e => some e.name
       | none => none) := by
    rw [hmap, extractLoop_map]
    cases lastContrib (headTag tn) k (visibleFields fs0) with
    | none => rfl
    | some e => rfl
  refine ⟨h1, ?_, ?_⟩
  · rw [GetKeys, htags, extractLoop_keys]
    simp only [List.nil_append]
    exact filterMap_count (headTag tn) k (visibleFields fs0)
  · intro e he σ
    have hml : mapLookup sr.tagsToName k = some e.name := by
      rw [h1, he]
    simp only [Get, hml]

/-- C9, witness: the duplicate-key example, where both fields are tagged
`k`: the mapping resolves to the later field `B` and the key counts
twice in the key sequence. -/
theorem claim_C9_witness :
    (mapLookup dupSR.tagsToName "k" =
      (match lastContrib (headTag ["db"]) "k" (visibleFields dupFs) with
       | some e => some e.name
       | none => none)) ∧
    (GetKeys dupSR).count "k" =
      ((visibleFields dupFs).filter (contribKey (headTag ["db"]) "k")).length ∧
    (∀ e, lastContrib (headTag ["db"]) "k" (visibleFields dupFs) = some e →
      ∀ σ : Nat → ValTree Int, Get σ dupSR "k" =
        (match indirectVal σ dupSR.record with
         | some fv => readField fv.1 fv.2 e.name
         | none => GetResult.panicked)) :=
  @claim_C9 Int dupVal ["db"] dupSR dupFs rfl rfl "k"

/-- C10: for the untyped nil input the factory panics —
`reflect.TypeOf` yields the nil type descriptor, on which `Kind` is
invoked — so it neither returns an adapter nor `ErrNotAStruct`. -/
theorem claim_C10 {α : Type} (tn : List String) :
    newStructRecord (GoVal.nilV : GoVal α) tn = .panicked := rfl

end PipeMsg
